import Mathlib

/-!
Verification of the Tree Mapper of `internal/consul/kv.go`: the functions
`ListMap` (unflatten a list of flat (path, value) entries into a nested map),
`PutMap` (flatten a nested map into per-field backend writes) and `PutStr`
(one backend write).

Go strings are modelled as `List Char`; the Go value
`map[string]interface{}` is modelled as an association list of
`(key, Val)` pairs, where `Val` is a string leaf, a nested map, or a
non-decomposable primitive (`prim`, standing for numbers, booleans, nil —
anything `mapstructure.Decode` fails to turn into a map of fields).
A Go runtime panic (assignment to an entry of a nil map) is modelled as
`Option.none`.
-/

namespace Consul

/-- Go strings, modelled as lists of characters. -/
abbrev GoStr := List Char

/-- Go `strings.Split(s, string(sep))` for a one-character separator. -/
def splitSep (sep : Char) : GoStr → List GoStr
  | [] => [[]]
  | c :: rest =>
    match splitSep sep rest with
    | [] => [[c]]
    | g :: gs => if c = sep then [] :: g :: gs else (c :: g) :: gs

/-- `startsWithStr s p` is Go `strings.HasPrefix(s, p)`. -/
def startsWithStr : GoStr → GoStr → Bool
  | _, [] => true
  | [], _ :: _ => false
  | c :: s, d :: p => c = d && startsWithStr s p

/-- Go `strings.TrimPrefix(s, p)`: drop `p` from the front of `s` when it is
there, otherwise return `s` unchanged. -/
def stripPre (p s : GoStr) : GoStr :=
  if startsWithStr s p then s.drop p.length else s

/-- Drop leading space characters (the cutset of `strings.Trim(s, " ")`). -/
def trimLead (s : GoStr) : GoStr := s.dropWhile (fun c => c = ' ')

/-- Go `strings.Trim(s, " ")`: drop leading and trailing spaces. -/
def trimSp (s : GoStr) : GoStr := trimLead (trimLead s.reverse).reverse

/-- Go `strings.HasSuffix(s, "/")`. -/
def endsSlash (s : GoStr) : Bool := decide (s.getLast? = some '/')

/-- The offset normalization performed at the top of `ListMap`: append a
trailing separator when one is missing. -/
def normOff (off : GoStr) : GoStr := if endsSlash off then off else off ++ ['/']

/-- A Go `interface{}` value as it appears in the mapper: a string, a
`map[string]interface{}` (association list), or a primitive that
`mapstructure.Decode` cannot decompose into fields. -/
inductive Val : Type where
  | str : GoStr → Val
  | map : List (GoStr × Val) → Val
  | prim : Val

/-- A `map[string]interface{}`, as an association list. -/
abbrev Tree := List (GoStr × Val)

/-- Go map read `t[k]`. -/
def lookupKey (t : Tree) (k : GoStr) : Option Val :=
  match t with
  | [] => none
  | (k2, v) :: r => if k2 = k then some v else lookupKey r k

/-- Go map write `t[k] = v`: replace the binding when the key is present,
add one otherwise. -/
def setKey (t : Tree) (k : GoStr) (v : Val) : Tree :=
  match t with
  | [] => [(k, v)]
  | (k2, v2) :: r => if k2 = k then (k2, v) :: r else (k2, v2) :: setKey r k v

/-- The inner loop of `ListMap` for one entry: walk the split path `keys`
through the tree, creating nested maps for the intermediate segments, and
store the raw value at the last segment.  An empty segment breaks out of
the loop.  When the walk meets an existing value that is not a map, the Go
code's discarded type assertion leaves `currentItem` as a nil map: the next
non-empty segment then assigns into a nil map, a runtime panic, modelled as
`none`. -/
def insertGo (t : Tree) (keys : List GoStr) (v : GoStr) : Option Tree :=
  match keys with
  | [] => some t
  | [k] => if k = [] then some t else some (setKey t k (Val.str v))
  | k :: k2 :: rest =>
    if k = [] then some t
    else
      match lookupKey t k with
      | some (Val.map sub) =>
        match insertGo sub (k2 :: rest) v with
        | some sub2 => some (setKey t k (Val.map sub2))
        | none => none
      | none =>
        match insertGo [] (k2 :: rest) v with
        | some sub2 => some (setKey t k (Val.map sub2))
        | none => none
      | some _ =>
        if k2 = [] then some t else none

/-- The entry loop of `ListMap`, with the offset already normalized:
trim the entry key of spaces, strip the offset, skip empty remainders, and
insert the split path.  `none` models the nil-map panic. -/
def ListMapGo (off2 : GoStr) (t : Tree) : List (GoStr × GoStr) → Option Tree
  | [] => some t
  | e :: rest =>
    let modEntry := stripPre off2 (trimSp e.1)
    if modEntry = [] then ListMapGo off2 t rest
    else
      match insertGo t (splitSep '/' modEntry) e.2 with
      | some t2 => ListMapGo off2 t2 rest
      | none => none

/-- `ListMap` of `kv.go`, with the backend's entry list passed in: normalize
the offset, then fold every entry into an initially empty result map. -/
def ListMap (entries : List (GoStr × GoStr)) (off : GoStr) : Option Tree :=
  ListMapGo (normOff off) [] entries

mutual
/-- The backend writes emitted for one value of `PutMap`'s switch: a string
is written at `path`; a map recurses field by field; a primitive is first
passed to `mapstructure.Decode`, whose error is discarded, leaving an empty
field map and hence no writes. -/
def valWrites (path : GoStr) : Val → List (GoStr × GoStr)
  | Val.str s => [(path, s)]
  | Val.map m => fieldsWrites path m
  | Val.prim => []
/-- The ordered sequence of backend writes `PutMap(p, data)` performs when
every write succeeds: a depth-first walk of the field list. -/
def fieldsWrites (p : GoStr) : List (GoStr × Val) → List (GoStr × GoStr)
  | [] => []
  | (k, v) :: rest => valWrites (p ++ '/' :: k) v ++ fieldsWrites p rest
end

/-- `PutStr` of `kv.go` against a backend whose failures are decided by
`fail`: on success the pair is appended to the store `st`, on failure the
wrapped error is returned and the store is unchanged. -/
def PutStr (fail : GoStr → Bool) (path v : GoStr) (st : List (GoStr × GoStr)) :
    List (GoStr × GoStr) × Bool :=
  if fail path then (st, false) else (st ++ [(path, v)], true)

mutual
/-- One arm of `PutMap`'s switch: strings go to `PutStr`; everything else is
decoded (a map decodes to itself, a primitive to the empty map, the decode
error being discarded) and recursed on. -/
def putVal (fail : GoStr → Bool) (path : GoStr) (v : Val)
    (st : List (GoStr × GoStr)) : List (GoStr × GoStr) × Bool :=
  match v with
  | Val.str s => PutStr fail path s st
  | Val.map m => PutMap fail path m st
  | Val.prim => PutMap fail path [] st
/-- `PutMap` of `kv.go`: iterate the fields in list order, writing each; the
first failing write stops the iteration and the error is returned at once,
leaving earlier writes in the store `st`. -/
def PutMap (fail : GoStr → Bool) (p : GoStr) (data : List (GoStr × Val))
    (st : List (GoStr × GoStr)) : List (GoStr × GoStr) × Bool :=
  match data with
  | [] => (st, true)
  | (k, v) :: rest =>
    match putVal fail (p ++ '/' :: k) v st with
    | (st2, true) => PutMap fail p rest st2
    | (st2, false) => (st2, false)
end

mutual
/-- Size measure for `Val`, used for fuel-style inductions. -/
def valSize : Val → Nat
  | Val.str _ => 1
  | Val.prim => 1
  | Val.map m => fieldsSize m + 1
/-- Size measure for field lists, used for fuel-style inductions. -/
def fieldsSize : Tree → Nat
  | [] => 1
  | (_, v) :: r => valSize v + fieldsSize r
end

mutual
/-- Boolean equality test on `Val`. -/
def valEqb : Val → Val → Bool
  | Val.str a, Val.str b => a == b
  | Val.map a, Val.map b => fieldsEqb a b
  | Val.prim, Val.prim => true
  | _, _ => false
/-- Boolean equality test on field lists. -/
def fieldsEqb : Tree → Tree → Bool
  | [], [] => true
  | (k, v) :: r, (k2, v2) :: r2 => k == k2 && valEqb v v2 && fieldsEqb r r2
  | _, _ => false
end

theorem valSize_pos : ∀ v : Val, 1 ≤ valSize v := by
  intro v; cases v <;> simp [valSize]

theorem fieldsSize_pos : ∀ l : Tree, 1 ≤ fieldsSize l := by
  intro l
  cases l with
  | nil => simp [fieldsSize]
  | cons h r =>
    obtain ⟨k, v⟩ := h
    have := valSize_pos v
    simp [fieldsSize]; omega

theorem valEqb_iff_fuel : ∀ n : Nat,
    (∀ a b : Val, valSize a ≤ n → (valEqb a b = true ↔ a = b)) ∧
    (∀ l l2 : Tree, fieldsSize l ≤ n → (fieldsEqb l l2 = true ↔ l = l2)) := by
  intro n
  induction n with
  | zero =>
    constructor
    · intro a b h; have := valSize_pos a; omega
    · intro l l2 h; have := fieldsSize_pos l; omega
  | succ n ih =>
    constructor
    · intro a b h
      cases a with
      | str s => cases b <;> simp [valEqb]
      | prim => cases b <;> simp [valEqb]
      | map m =>
        cases b with
        | str s => simp [valEqb]
        | prim => simp [valEqb]
        | map m2 =>
          have hm : fieldsSize m ≤ n := by simp [valSize] at h; omega
          simp [valEqb, ih.2 m m2 hm]
    · intro l l2 h
      cases l with
      | nil => cases l2 <;> simp [fieldsEqb]
      | cons e r =>
        obtain ⟨k, v⟩ := e
        cases l2 with
        | nil => simp [fieldsEqb]
        | cons e2 r2 =>
          obtain ⟨k2, v2⟩ := e2
          have hv : valSize v ≤ n := by
            have := fieldsSize_pos r; simp [fieldsSize] at h; omega
          have hr : fieldsSize r ≤ n := by
            have := valSize_pos v; simp [fieldsSize] at h; omega
          simp [fieldsEqb, ih.1 v v2 hv, ih.2 r r2 hr, Bool.and_eq_true]

instance : DecidableEq Val := fun a b =>
  decidable_of_iff (valEqb a b = true) ((valEqb_iff_fuel (valSize a)).1 a b le_rfl)

/-! ### Lemmas about the Go string operations -/

theorem startsWithStr_append (p t : GoStr) : startsWithStr (p ++ t) p = true := by
  induction p with
  | nil => cases t <;> simp [startsWithStr]
  | cons c r ih => simp [startsWithStr, ih]

theorem stripPre_append (p t : GoStr) : stripPre p (p ++ t) = t := by
  simp [stripPre, startsWithStr_append, List.drop_left]

theorem stripPre_self (p : GoStr) : stripPre p p = [] := by
  have := stripPre_append p []
  simpa using this

theorem trimLead_of_head (s : GoStr) (h : s.head? ≠ some ' ') : trimLead s = s := by
  cases s with
  | nil => simp [trimLead]
  | cons c r =>
    simp at h
    simp [trimLead, List.dropWhile_cons, h]

theorem trimSp_id (s : GoStr) (h1 : s.head? ≠ some ' ') (h2 : s.getLast? ≠ some ' ') :
    trimSp s = s := by
  have hrev : s.reverse.head? ≠ some ' ' := by
    rwa [List.head?_reverse]
  rw [trimSp, trimLead_of_head s.reverse hrev, List.reverse_reverse,
    trimLead_of_head s h1]

theorem endsSlash_concat (s : GoStr) : endsSlash (s ++ ['/']) = true := by
  simp [endsSlash]

theorem normOff_concat (off : GoStr) (h : endsSlash off = false) :
    normOff off = off ++ ['/'] := by
  simp [normOff, h]

theorem splitSep_ne_nil (sep : Char) (s : GoStr) : splitSep sep s ≠ [] := by
  cases s with
  | nil => simp [splitSep]
  | cons c r =>
    simp only [splitSep]
    cases hs : splitSep sep r with
    | nil => simp
    | cons g gs =>
      by_cases hc : c = sep <;> simp [hc]

theorem splitSep_no_sep (sep : Char) (s : GoStr) (h : sep ∉ s) :
    splitSep sep s = [s] := by
  induction s with
  | nil => simp [splitSep]
  | cons c r ih =>
    simp at h
    rw [splitSep, ih h.2]
    simp [Ne.symm h.1]

theorem splitSep_append_sep (sep : Char) (x ys : GoStr) (h : sep ∉ x) :
    splitSep sep (x ++ sep :: ys) = x :: splitSep sep ys := by
  induction x with
  | nil =>
    simp only [List.nil_append, splitSep]
    cases hs : splitSep sep ys with
    | nil => exact absurd hs (splitSep_ne_nil sep ys)
    | cons g gs => simp
  | cons c r ih =>
    simp at h
    rw [List.cons_append, splitSep, ih h.2]
    simp [Ne.symm h.1]

/-! ### takeWhile helpers for the partial-write theorem -/

theorem takeWhile_of_all {α : Type} (q : α → Bool) (l : List α) (h : l.all q = true) :
    l.takeWhile q = l := by
  induction l with
  | nil => rfl
  | cons x r ih =>
    rw [List.all_cons, Bool.and_eq_true] at h
    simp [List.takeWhile_cons, h.1, ih h.2]

theorem takeWhile_append_of_all {α : Type} (q : α → Bool) (a b : List α)
    (h : a.all q = true) : (a ++ b).takeWhile q = a ++ b.takeWhile q := by
  induction a with
  | nil => simp
  | cons x r ih =>
    rw [List.all_cons, Bool.and_eq_true] at h
    simp [List.takeWhile_cons, h.1, ih h.2]

theorem takeWhile_append_of_not_all {α : Type} (q : α → Bool) (a b : List α)
    (h : a.all q = false) : (a ++ b).takeWhile q = a.takeWhile q := by
  induction a with
  | nil => simp at h
  | cons x r ih =>
    cases hx : q x with
    | false => simp [List.takeWhile_cons, hx]
    | true =>
      rw [List.all_cons, hx, Bool.true_and] at h
      simp [List.takeWhile_cons, hx, ih h]

theorem putMap_eq_fuel : ∀ n : Nat,
    (∀ (fail : GoStr → Bool) (path : GoStr) (v : Val) (st : List (GoStr × GoStr)),
      valSize v ≤ n →
      putVal fail path v st =
        (st ++ (valWrites path v).takeWhile (fun w => !fail w.1),
         (valWrites path v).all (fun w => !fail w.1))) ∧
    (∀ (fail : GoStr → Bool) (p : GoStr) (data : Tree) (st : List (GoStr × GoStr)),
      fieldsSize data ≤ n →
      PutMap fail p data st =
        (st ++ (fieldsWrites p data).takeWhile (fun w => !fail w.1),
         (fieldsWrites p data).all (fun w => !fail w.1))) := by
  intro n
  induction n with
  | zero =>
    constructor
    · intro fail path v st h; have := valSize_pos v; omega
    · intro fail p data st h; have := fieldsSize_pos data; omega
  | succ n ih =>
    constructor
    · intro fail path v st h
      cases v with
      | str s =>
        cases hf : fail path with
        | true => simp [putVal, PutStr, valWrites, hf, List.takeWhile_cons]
        | false => simp [putVal, PutStr, valWrites, hf, List.takeWhile_cons]
      | map m =>
        have hm : fieldsSize m ≤ n := by simp [valSize] at h; omega
        simpa [putVal, valWrites] using ih.2 fail path m st hm
      | prim => simp [putVal, PutMap, valWrites]
    · intro fail p data st h
      cases data with
      | nil => simp [PutMap, fieldsWrites]
      | cons e rest =>
        obtain ⟨k, v⟩ := e
        have hv : valSize v ≤ n := by
          have := fieldsSize_pos rest; simp [fieldsSize] at h; omega
        have hr : fieldsSize rest ≤ n := by
          have := valSize_pos v; simp [fieldsSize] at h; omega
        cases hall : (valWrites (p ++ '/' :: k) v).all (fun w => !fail w.1) with
        | true =>
          have h1 : PutMap fail p ((k, v) :: rest) st
              = PutMap fail p rest (st ++ valWrites (p ++ '/' :: k) v) := by
            rw [PutMap, ih.1 fail (p ++ '/' :: k) v st hv, hall,
              takeWhile_of_all _ _ hall]
          rw [h1, ih.2 fail p rest _ hr]
          simp [fieldsWrites, takeWhile_append_of_all _ _ _ hall, hall]
        | false =>
          have h1 : PutMap fail p ((k, v) :: rest) st
              = (st ++ (valWrites (p ++ '/' :: k) v).takeWhile
                  (fun w => !fail w.1), false) := by
            rw [PutMap, ih.1 fail (p ++ '/' :: k) v st hv, hall]
          rw [h1]
          simp [fieldsWrites, takeWhile_append_of_not_all _ _ _ hall, hall]

/-- C6: no rollback on partial write.  Running `PutMap` against a backend
whose failing paths are decided by `fail` appends to the store exactly the
depth-first writes that precede the first failing field, stops there, and
reports success exactly when every write succeeds.  In particular a failure
is returned immediately and the sibling paths written before it remain in
the store; on full success all writes land and `nil` (true) is returned. -/
theorem PutMap_partial_write_semantics (fail : GoStr → Bool) (p : GoStr)
    (data : Tree) (st : List (GoStr × GoStr)) :
    PutMap fail p data st =
      (st ++ (fieldsWrites p data).takeWhile (fun w => !fail w.1),
       (fieldsWrites p data).all (fun w => !fail w.1)) :=
  (putMap_eq_fuel (fieldsSize data)).2 fail p data st le_rfl

/-- C2: `ListMap` is not total: on the entry list `a -> 1, a/b -> 2`
(offset `""`), the walk for `a/b` finds the string leaf stored at `a`, the
discarded type assertion leaves `currentItem` as a nil map, and the write of
segment `b` is an assignment to an entry of a nil map — a runtime panic,
modelled as `none`. -/
theorem ListMap_nil_map_panic :
    ListMap [(['a'], ['1']), (['a', '/', 'b'], ['2'])] [] = none := by rfl

/-- C7: offset normalization.  `ListMap` with an offset that does not end
with the path separator returns exactly the same result as with that offset
plus a trailing separator. -/
theorem ListMap_offset_normalization (entries : List (GoStr × GoStr))
    (off : GoStr) (h : endsSlash off = false) :
    ListMap entries off = ListMap entries (off ++ ['/']) := by
  simp [ListMap, normOff, h, endsSlash_concat]

/-- Witness for C7 at offset `a` against entry `a/b -> v`. -/
theorem ListMap_offset_normalization_witness :
    endsSlash ['a'] = false ∧
    ListMap [(['a', '/', 'b'], ['v'])] ['a'] =
      ListMap [(['a', '/', 'b'], ['v'])] (['a'] ++ ['/']) :=
  ⟨by decide, ListMap_offset_normalization [(['a', '/', 'b'], ['v'])] ['a'] (by decide)⟩

/-- C10: silent drop of non-decomposable fields.  A field holding a value
that is neither a string nor decomposable into a map of fields (modelled by
`Val.prim`) produces no backend write and no error: `PutMap` on a field
list starting with such a field behaves exactly as on the list without it,
and on such a field alone it succeeds (returns nil) having written
nothing. -/
theorem PutMap_silent_drop (fail : GoStr → Bool) (p k : GoStr) (rest : Tree)
    (st : List (GoStr × GoStr)) :
    PutMap fail p ((k, Val.prim) :: rest) st = PutMap fail p rest st ∧
    PutMap fail p [(k, Val.prim)] st = (st, true) := by
  constructor
  · rw [PutMap]; simp [putVal, PutMap]
  · simp [PutMap, putVal]

/-! ### C9: write order under Go map iteration order -/

/-- Two `Val`s denote the same Go value when they differ only in the order
in which the fields of their (nested) maps are listed — the aspect of a Go
map that its randomized `range` iteration order does not fix. -/
inductive VEquiv : Val → Val → Prop where
  | str (s : GoStr) : VEquiv (Val.str s) (Val.str s)
  | prim : VEquiv Val.prim Val.prim
  | mnil : VEquiv (Val.map []) (Val.map [])
  | mcons (k : GoStr) {v₁ v₂ : Val} {l₁ l₂ : Tree} :
      VEquiv v₁ v₂ → VEquiv (Val.map l₁) (Val.map l₂) →
      VEquiv (Val.map ((k, v₁) :: l₁)) (Val.map ((k, v₂) :: l₂))
  | mswap (a b : GoStr × Val) (l : Tree) :
      VEquiv (Val.map (a :: b :: l)) (Val.map (b :: a :: l))
  | mtrans {u v w : Val} : VEquiv u v → VEquiv v w → VEquiv u w

theorem valWrites_perm_of_vequiv {v₁ v₂ : Val} (h : VEquiv v₁ v₂) :
    ∀ path, (valWrites path v₁).Perm (valWrites path v₂) := by
  induction h with
  | str s => exact fun path => List.Perm.refl _
  | prim => exact fun path => List.Perm.refl _
  | mnil => exact fun path => List.Perm.refl _
  | mcons k h1 h2 ih1 ih2 =>
    intro path
    simp only [valWrites, fieldsWrites]
    exact List.Perm.append (ih1 _) (by simpa [valWrites] using ih2 path)
  | mswap a b l =>
    intro path
    obtain ⟨k1, u1⟩ := a
    obtain ⟨k2, u2⟩ := b
    simp only [valWrites, fieldsWrites]
    exact List.perm_append_comm_assoc _ _ _
  | mtrans h1 h2 ih1 ih2 => exact fun path => (ih1 path).trans (ih2 path)

/-- C9 (amended): `PutMap` flattens by a depth-first walk emitting one write
per string leaf, but the order in which `range` visits a Go map's fields is
unspecified; two runs on the same input value produce write sequences that
are permutations of each other (the same multiset of writes), not
necessarily the same sequence.  Any two field orderings of the same nested
map (related by `VEquiv`) yield permuted write lists. -/
theorem PutMap_writes_perm_under_iteration_order (p : GoStr) (l₁ l₂ : Tree)
    (h : VEquiv (Val.map l₁) (Val.map l₂)) :
    (fieldsWrites p l₁).Perm (fieldsWrites p l₂) := by
  simpa [valWrites] using valWrites_perm_of_vequiv h p

/-- C9 counterexample: the two-field map `{a: 1, b: 2}` listed in its two
possible iteration orders — the same Go map value, as witnessed by the
permutation — flattens to two different write sequences, so the ordered
sequence of writes is not determined by the input tree. -/
theorem PutMap_write_order_not_deterministic :
    ([(['a'], Val.str ['1']), (['b'], Val.str ['2'])] : Tree).Perm
      [(['b'], Val.str ['2']), (['a'], Val.str ['1'])] ∧
    fieldsWrites ['p'] [(['a'], Val.str ['1']), (['b'], Val.str ['2'])] ≠
      fieldsWrites ['p'] [(['b'], Val.str ['2']), (['a'], Val.str ['1'])] :=
  ⟨List.Perm.swap _ _ _, by decide⟩

/-- Witness for C9: the amended theorem applied to the concrete two-field
map above. -/
theorem PutMap_writes_perm_witness :
    (fieldsWrites ['p'] [(['a'], Val.str ['1']), (['b'], Val.str ['2'])]).Perm
      (fieldsWrites ['p'] [(['b'], Val.str ['2']), (['a'], Val.str ['1'])]) :=
  PutMap_writes_perm_under_iteration_order ['p'] _ _
    (VEquiv.mswap (['a'], Val.str ['1']) (['b'], Val.str ['2']) [])

/-! ### C8: entries equal to the offset are skipped -/

theorem ListMapGo_append (off2 : GoStr) (t : Tree) (a b : List (GoStr × GoStr)) :
    ListMapGo off2 t (a ++ b) =
      match ListMapGo off2 t a with
      | some t2 => ListMapGo off2 t2 b
      | none => none := by
  induction a generalizing t with
  | nil => simp [ListMapGo]
  | cons e r ih =>
    simp only [List.cons_append, ListMapGo]
    by_cases hm : stripPre off2 (trimSp e.1) = []
    · simp [hm, ih]
    · simp only [hm, if_neg hm]
      cases hi : insertGo t (splitSep '/' (stripPre off2 (trimSp e.1))) e.2 with
      | none => simp
      | some t2 => simp [ih]

/-- C8: empty-remainder skip.  An entry whose space-trimmed path equals the
normalized offset exactly — so that stripping the offset leaves an empty
remainder — contributes nothing: `ListMap` on a list containing it returns
exactly what it returns on the list without it. -/
theorem ListMap_offset_entry_skipped (off : GoStr) (e : GoStr × GoStr)
    (pre post : List (GoStr × GoStr)) (h : trimSp e.1 = normOff off) :
    ListMap (pre ++ e :: post) off = ListMap (pre ++ post) off := by
  unfold ListMap
  rw [ListMapGo_append, ListMapGo_append]
  cases hpre : ListMapGo (normOff off) [] pre with
  | none => rfl
  | some t2 => simp [ListMapGo, h, stripPre_self]

/-- Witness for C8: the entry `p/ -> v` with offset `p` is skipped. -/
theorem ListMap_offset_entry_skipped_witness :
    trimSp ['p', '/'] = normOff ['p'] ∧
    ListMap [(['p', '/'], ['v']), (['p', '/', 'a'], ['w'])] ['p'] =
      ListMap [(['p', '/', 'a'], ['w'])] ['p'] :=
  ⟨by decide, ListMap_offset_entry_skipped ['p'] (['p', '/'], ['v']) []
    [(['p', '/', 'a'], ['w'])] (by decide)⟩

/-! ### C4: empty segments truncate descent -/

mutual
/-- No key of any nested map is the empty string (value form). -/
def valNoEmptyKey : Val → Bool
  | Val.map m => treeNoEmptyKey m
  | Val.str _ => true
  | Val.prim => true
/-- No key of any nested map is the empty string (tree form). -/
def treeNoEmptyKey : Tree → Bool
  | [] => true
  | (k, v) :: r => !k.isEmpty && valNoEmptyKey v && treeNoEmptyKey r
end

theorem insertGo_empty_head (t : Tree) (post : List GoStr) (v : GoStr) :
    insertGo t ([] :: post) v = some t := by
  cases post with
  | nil => rfl
  | cons p ps => simp [insertGo]


theorem insertGo_single (t : Tree) (k : GoStr) (v : GoStr) (hk : k ≠ []) :
    insertGo t [k] v = some (setKey t k (Val.str v)) := by
  simp [insertGo, hk]

theorem insertGo_step_map {t : Tree} {k : GoStr} {sub : Tree} (k2 : GoStr)
    (rest : List GoStr) (v : GoStr) (hk : k ≠ [])
    (hl : lookupKey t k = some (Val.map sub)) :
    insertGo t (k :: k2 :: rest) v =
      match insertGo sub (k2 :: rest) v with
      | some sub2 => some (setKey t k (Val.map sub2))
      | none => none := by
  simp [insertGo, hk, hl]

theorem insertGo_step_none {t : Tree} {k : GoStr} (k2 : GoStr)
    (rest : List GoStr) (v : GoStr) (hk : k ≠ [])
    (hl : lookupKey t k = none) :
    insertGo t (k :: k2 :: rest) v =
      match insertGo [] (k2 :: rest) v with
      | some sub2 => some (setKey t k (Val.map sub2))
      | none => none := by
  simp [insertGo, hk, hl]

theorem insertGo_step_str {t : Tree} {k : GoStr} {s : GoStr} (k2 : GoStr)
    (rest : List GoStr) (v : GoStr) (hk : k ≠ [])
    (hl : lookupKey t k = some (Val.str s)) :
    insertGo t (k :: k2 :: rest) v = if k2 = [] then some t else none := by
  simp [insertGo, hk, hl]

theorem insertGo_step_prim {t : Tree} {k : GoStr} (k2 : GoStr)
    (rest : List GoStr) (v : GoStr) (hk : k ≠ [])
    (hl : lookupKey t k = some Val.prim) :
    insertGo t (k :: k2 :: rest) v = if k2 = [] then some t else none := by
  simp [insertGo, hk, hl]

theorem insertGo_truncates : ∀ (pre : List GoStr) (t : Tree) (post : List GoStr)
    (v : GoStr), insertGo t (pre ++ [] :: post) v = insertGo t (pre ++ [[]]) v := by
  intro pre
  induction pre with
  | nil => intro t post v; simp [insertGo_empty_head]
  | cons a pre2 ih =>
    intro t post v
    by_cases ha : a = []
    · subst ha
      rw [List.cons_append, List.cons_append, insertGo_empty_head,
        insertGo_empty_head]
    · cases pre2 with
      | nil =>
        simp only [List.cons_append, List.nil_append]
        cases hl : lookupKey t a with
        | none =>
          rw [insertGo_step_none [] post v ha hl,
            insertGo_step_none [] [] v ha hl,
            insertGo_empty_head, insertGo_empty_head]
        | some u =>
          cases u with
          | map sub =>
            rw [insertGo_step_map [] post v ha hl,
              insertGo_step_map [] [] v ha hl,
              insertGo_empty_head, insertGo_empty_head]
          | str s =>
            rw [insertGo_step_str [] post v ha hl,
              insertGo_step_str [] [] v ha hl]
          | prim =>
            rw [insertGo_step_prim [] post v ha hl,
              insertGo_step_prim [] [] v ha hl]
      | cons b pre3 =>
        have ih2 := ih
        simp only [List.cons_append] at ih2
        simp only [List.cons_append]
        cases hl : lookupKey t a with
        | none =>
          rw [insertGo_step_none b (pre3 ++ [] :: post) v ha hl,
            insertGo_step_none b (pre3 ++ [[]]) v ha hl, ih2]
        | some u =>
          cases u with
          | map sub =>
            rw [insertGo_step_map b (pre3 ++ [] :: post) v ha hl,
              insertGo_step_map b (pre3 ++ [[]]) v ha hl, ih2]
          | str s =>
            rw [insertGo_step_str b (pre3 ++ [] :: post) v ha hl,
              insertGo_step_str b (pre3 ++ [[]]) v ha hl]
          | prim =>
            rw [insertGo_step_prim b (pre3 ++ [] :: post) v ha hl,
              insertGo_step_prim b (pre3 ++ [[]]) v ha hl]

theorem setKey_noEmptyKey (t : Tree) (k : GoStr) (v : Val)
    (ht : treeNoEmptyKey t = true) (hk : k ≠ []) (hv : valNoEmptyKey v = true) :
    treeNoEmptyKey (setKey t k v) = true := by
  induction t with
  | nil => simp [setKey, treeNoEmptyKey, hv, List.isEmpty_iff, hk]
  | cons e r ih =>
    obtain ⟨k2, v2⟩ := e
    simp only [treeNoEmptyKey, Bool.and_eq_true] at ht
    by_cases h2 : k2 = k
    · simp [setKey, h2, treeNoEmptyKey, hv, ht.1.1, ht.2, hk]
    · simp [setKey, h2, treeNoEmptyKey, ht.1.1, ht.1.2, ih ht.2]

theorem lookupKey_noEmptyKey (t : Tree) (k : GoStr) (u : Val)
    (ht : treeNoEmptyKey t = true) (h : lookupKey t k = some u) :
    valNoEmptyKey u = true := by
  induction t with
  | nil => simp [lookupKey] at h
  | cons e r ih =>
    obtain ⟨k2, v2⟩ := e
    simp only [treeNoEmptyKey, Bool.and_eq_true] at ht
    by_cases h2 : k2 = k
    · simp only [lookupKey, if_pos h2] at h
      cases h; exact ht.1.2
    · simp only [lookupKey, if_neg h2] at h
      exact ih ht.2 h

theorem insertGo_preserves_noEmptyKey :
    ∀ (keys : List GoStr) (t t2 : Tree) (v : GoStr),
      treeNoEmptyKey t = true → insertGo t keys v = some t2 →
      treeNoEmptyKey t2 = true := by
  intro keys
  induction keys with
  | nil =>
    intro t t2 v ht h
    simp only [insertGo] at h
    cases h; exact ht
  | cons k ktail ih =>
    intro t t2 v ht h
    cases ktail with
    | nil =>
      by_cases hk : k = []
      · simp only [insertGo, if_pos hk] at h
        cases h; exact ht
      · simp only [insertGo, if_neg hk] at h
        cases h
        exact setKey_noEmptyKey t k (Val.str v) ht hk rfl
    | cons k2 rest =>
      by_cases hk : k = []
      · simp only [insertGo, if_pos hk] at h
        cases h; exact ht
      · cases hl : lookupKey t k with
        | none =>
          rw [insertGo_step_none k2 rest v hk hl] at h
          cases hi : insertGo [] (k2 :: rest) v with
          | none => rw [hi] at h; cases h
          | some sub2 =>
            rw [hi] at h
            cases h
            have hsub2 := ih [] sub2 v rfl hi
            exact setKey_noEmptyKey t k (Val.map sub2) ht hk hsub2
        | some u =>
          cases u with
          | map sub =>
            rw [insertGo_step_map k2 rest v hk hl] at h
            cases hi : insertGo sub (k2 :: rest) v with
            | none => rw [hi] at h; cases h
            | some sub2 =>
              rw [hi] at h
              cases h
              have hsub : treeNoEmptyKey sub = true := by
                have := lookupKey_noEmptyKey t k (Val.map sub) ht hl
                simpa [valNoEmptyKey] using this
              have hsub2 := ih sub sub2 v hsub hi
              exact setKey_noEmptyKey t k (Val.map sub2) ht hk hsub2
          | str s =>
            rw [insertGo_step_str k2 rest v hk hl] at h
            by_cases h2 : k2 = []
            · simp only [if_pos h2] at h; cases h; exact ht
            · simp only [if_neg h2] at h; cases h
          | prim =>
            rw [insertGo_step_prim k2 rest v hk hl] at h
            by_cases h2 : k2 = []
            · simp only [if_pos h2] at h; cases h; exact ht
            · simp only [if_neg h2] at h; cases h

/-- C4 (amended): provided the walk reaches the empty segment (it can
instead panic en route through an existing string leaf — see the C2 bug),
descent stops there: the path with an empty segment behaves exactly like
the path cut right after that empty segment, the remaining segments being
dropped without error; and an empty segment never becomes a key — trees
with no empty keys stay so under every insertion, in particular nothing
ever stores under an empty key. -/
theorem ListMap_empty_segment_truncation (t : Tree) (pre post : List GoStr)
    (v : GoStr) :
    insertGo t (pre ++ [] :: post) v = insertGo t (pre ++ [[]]) v ∧
    (∀ t2, treeNoEmptyKey t = true → insertGo t (pre ++ [] :: post) v = some t2 →
      treeNoEmptyKey t2 = true) :=
  ⟨insertGo_truncates pre t post v,
   fun t2 ht h => insertGo_preserves_noEmptyKey _ t t2 v ht h⟩

/-- C4 counterexample: an entry whose stripped path contains an empty
segment is not always "dropped without error": processing `a/b//c` after
`a -> 1` panics at segment `b`, before the empty segment is reached. -/
theorem ListMap_empty_segment_entry_panics :
    ListMap [(['a'], ['1']), (['a', '/', 'b', '/', '/', 'c'], ['2'])] [] =
      none := by rfl

/-- Witness for C4: truncation and key invariant at path `a//c` on the
empty tree. -/
theorem ListMap_empty_segment_truncation_witness :
    insertGo [] ([['a']] ++ [] :: [['c']]) ['v'] =
      insertGo [] ([['a']] ++ [[]]) ['v'] ∧
    treeNoEmptyKey [(['a'], Val.map [])] = true :=
  ⟨(ListMap_empty_segment_truncation [] [['a']] [['c']] ['v']).1,
   (ListMap_empty_segment_truncation [] [['a']] [['c']] ['v']).2
     [(['a'], Val.map [])] (by rfl) (by rfl)⟩

/-! ### C5: last write wins on colliding paths -/

/-- Read the value stored at a (non-empty) segment path of a tree. -/
def getPath (t : Tree) : List GoStr → Option Val
  | [] => none
  | [k] => lookupKey t k
  | k :: k2 :: rest =>
    match lookupKey t k with
    | some (Val.map sub) => getPath sub (k2 :: rest)
    | _ => none

/-- The offset-stripped, space-trimmed path of an entry key, split into
segments — the `keys` list the `ListMap` loop walks. -/
def entrySegs (off2 key : GoStr) : List GoStr :=
  splitSep '/' (stripPre off2 (trimSp key))

theorem lookupKey_setKey_same (t : Tree) (k : GoStr) (v : Val) :
    lookupKey (setKey t k v) k = some v := by
  induction t with
  | nil => simp [setKey, lookupKey]
  | cons e r ih =>
    obtain ⟨k2, v2⟩ := e
    by_cases h2 : k2 = k
    · simp [setKey, h2, lookupKey]
    · simp [setKey, h2, lookupKey, ih]

theorem lookupKey_setKey_other (t : Tree) (k a : GoStr) (v : Val) (h : k ≠ a) :
    lookupKey (setKey t k v) a = lookupKey t a := by
  induction t with
  | nil => simp [setKey, lookupKey, h]
  | cons e r ih =>
    obtain ⟨k2, v2⟩ := e
    by_cases h2 : k2 = k
    · subst h2
      simp [setKey, lookupKey, h]
    · simp [setKey, h2, lookupKey, ih]

theorem getPath_setKey_other (t : Tree) (k a : GoStr) (v : Val)
    (p2 : List GoStr) (h : k ≠ a) :
    getPath (setKey t k v) (a :: p2) = getPath t (a :: p2) := by
  cases p2 with
  | nil => simp only [getPath]; rw [lookupKey_setKey_other t k a v h]
  | cons b rest => simp only [getPath]; rw [lookupKey_setKey_other t k a v h]

theorem insertGo_sets : ∀ (q : List GoStr) (t t2 : Tree) (v : GoStr),
    q ≠ [] → (∀ s ∈ q, s ≠ []) → insertGo t q v = some t2 →
    getPath t2 q = some (Val.str v) := by
  intro q
  induction q with
  | nil => intro t t2 v hq; exact absurd rfl hq
  | cons k qt ih =>
    intro t t2 v _ hs h
    have hk : k ≠ [] := hs k (by simp)
    cases qt with
    | nil =>
      rw [insertGo_single t k v hk] at h
      cases h
      simp [getPath, lookupKey_setKey_same]
    | cons k2 rest =>
      cases hl : lookupKey t k with
      | none =>
        rw [insertGo_step_none k2 rest v hk hl] at h
        cases hi : insertGo [] (k2 :: rest) v with
        | none => rw [hi] at h; cases h
        | some sub2 =>
          rw [hi] at h; cases h
          have hrec := ih [] sub2 v (by simp)
            (fun s hs2 => hs s (by simp [hs2])) hi
          simp only [getPath]
          rw [lookupKey_setKey_same]
          exact hrec
      | some u =>
        cases u with
        | map sub =>
          rw [insertGo_step_map k2 rest v hk hl] at h
          cases hi : insertGo sub (k2 :: rest) v with
          | none => rw [hi] at h; cases h
          | some sub2 =>
            rw [hi] at h; cases h
            have hrec := ih sub sub2 v (by simp)
              (fun s hs2 => hs s (by simp [hs2])) hi
            simp only [getPath]
            rw [lookupKey_setKey_same]
            exact hrec
        | str s =>
          rw [insertGo_step_str k2 rest v hk hl] at h
          have h2 : k2 ≠ [] := hs k2 (by simp)
          rw [if_neg h2] at h; cases h
        | prim =>
          rw [insertGo_step_prim k2 rest v hk hl] at h
          have h2 : k2 ≠ [] := hs k2 (by simp)
          rw [if_neg h2] at h; cases h

theorem insertGo_preserves_getPath : ∀ (q : List GoStr) (t t2 : Tree)
    (w : GoStr) (p : List GoStr) (v : GoStr),
    insertGo t q w = some t2 → ¬(q <+: p) →
    getPath t p = some (Val.str v) → getPath t2 p = some (Val.str v) := by
  intro q
  induction q with
  | nil => intro t t2 w p v h hq hp; exact absurd List.nil_prefix hq
  | cons k qt ih =>
    intro t t2 w p v h hq hp
    cases p with
    | nil => simp [getPath] at hp
    | cons a p2 =>
      by_cases hk : k = []
      · subst hk
        rw [insertGo_empty_head] at h
        cases h; exact hp
      · by_cases hak : a = k
        · subst hak
          cases qt with
          | nil =>
            exact absurd (List.cons_prefix_cons.mpr ⟨rfl, List.nil_prefix⟩) hq
          | cons k2 rest =>
            cases hl : lookupKey t a with
            | none =>
              cases p2 with
              | nil => simp only [getPath] at hp; rw [hl] at hp; cases hp
              | cons b p3 => simp only [getPath] at hp; rw [hl] at hp; cases hp
            | some u =>
              cases u with
              | map sub =>
                rw [insertGo_step_map k2 rest w hk hl] at h
                cases hi : insertGo sub (k2 :: rest) w with
                | none => rw [hi] at h; cases h
                | some sub2 =>
                  rw [hi] at h; cases h
                  cases p2 with
                  | nil => simp only [getPath] at hp; rw [hl] at hp; cases hp
                  | cons b p3 =>
                    simp only [getPath] at hp
                    simp only [hl] at hp
                    have hq2 : ¬((k2 :: rest) <+: (b :: p3)) := fun hpre =>
                      hq (List.cons_prefix_cons.mpr ⟨rfl, hpre⟩)
                    have hrec := ih sub sub2 w (b :: p3) v hi hq2 hp
                    simp only [getPath]
                    rw [lookupKey_setKey_same]
                    exact hrec
              | str s =>
                rw [insertGo_step_str k2 rest w hk hl] at h
                by_cases h2 : k2 = []
                · rw [if_pos h2] at h; cases h; exact hp
                · rw [if_neg h2] at h; cases h
              | prim =>
                rw [insertGo_step_prim k2 rest w hk hl] at h
                by_cases h2 : k2 = []
                · rw [if_pos h2] at h; cases h; exact hp
                · rw [if_neg h2] at h; cases h
        · have hka : k ≠ a := fun he => hak he.symm
          cases qt with
          | nil =>
            rw [insertGo_single t k w hk] at h
            cases h
            rw [getPath_setKey_other t k a _ p2 hka]
            exact hp
          | cons k2 rest =>
            cases hl : lookupKey t k with
            | none =>
              rw [insertGo_step_none k2 rest w hk hl] at h
              cases hi : insertGo [] (k2 :: rest) w with
              | none => rw [hi] at h; cases h
              | some sub2 =>
                rw [hi] at h; cases h
                rw [getPath_setKey_other t k a _ p2 hka]
                exact hp
            | some u =>
              cases u with
              | map sub =>
                rw [insertGo_step_map k2 rest w hk hl] at h
                cases hi : insertGo sub (k2 :: rest) w with
                | none => rw [hi] at h; cases h
                | some sub2 =>
                  rw [hi] at h; cases h
                  rw [getPath_setKey_other t k a _ p2 hka]
                  exact hp
              | str s =>
                rw [insertGo_step_str k2 rest w hk hl] at h
                by_cases h2 : k2 = []
                · rw [if_pos h2] at h; cases h; exact hp
                · rw [if_neg h2] at h; cases h
              | prim =>
                rw [insertGo_step_prim k2 rest w hk hl] at h
                by_cases h2 : k2 = []
                · rw [if_pos h2] at h; cases h; exact hp
                · rw [if_neg h2] at h; cases h

theorem ListMapGo_preserves_getPath : ∀ (post : List (GoStr × GoStr))
    (off2 : GoStr) (t2 t : Tree) (p : List GoStr) (v : GoStr),
    ListMapGo off2 t2 post = some t →
    (∀ e ∈ post, ¬(entrySegs off2 e.1 <+: p)) →
    getPath t2 p = some (Val.str v) → getPath t p = some (Val.str v) := by
  intro post
  induction post with
  | nil =>
    intro off2 t2 t p v h _ hp
    cases h; exact hp
  | cons e r ih =>
    intro off2 t2 t p v h he hp
    by_cases hm : stripPre off2 (trimSp e.1) = []
    · simp only [ListMapGo] at h
      rw [if_pos hm] at h
      exact ih off2 t2 t p v h (fun x hx => he x (by simp [hx])) hp
    · simp only [ListMapGo] at h
      rw [if_neg hm] at h
      cases hi : insertGo t2 (splitSep '/' (stripPre off2 (trimSp e.1))) e.2 with
      | none => rw [hi] at h; cases h
      | some t3 =>
        rw [hi] at h
        have hq : ¬(entrySegs off2 e.1 <+: p) := he e (by simp)
        have hp3 := insertGo_preserves_getPath _ t2 t3 e.2 p v hi hq hp
        exact ih off2 t3 t p v h (fun x hx => he x (by simp [hx])) hp3

/-- C5 (amended): last write wins, on runs that do not panic.  If `ListMap`
returns a tree (no nil-map panic — see the C2 bug), and an entry `e0` walks
the non-degenerate segment path `p` (no empty segments), and no later entry
walks a path that is a prefix of `p` (in particular `e0` is the last entry
for path `p` — a later equal path would rewrite it, a later proper prefix
would overwrite the whole branch with a leaf), then the value stored at `p`
in the result is `e0`'s value; colliding earlier writes are silently
overwritten, never reported as duplicate errors. -/
theorem ListMap_last_write_wins (off : GoStr) (pre post : List (GoStr × GoStr))
    (e0 : GoStr × GoStr) (t : Tree) (p : List GoStr)
    (hp : entrySegs (normOff off) e0.1 = p)
    (hne : ∀ s ∈ p, s ≠ [])
    (hpost : ∀ e ∈ post, ¬(entrySegs (normOff off) e.1 <+: p))
    (hok : ListMap (pre ++ e0 :: post) off = some t) :
    getPath t p = some (Val.str e0.2) := by
  unfold ListMap at hok
  rw [ListMapGo_append] at hok
  cases hpre : ListMapGo (normOff off) [] pre with
  | none => rw [hpre] at hok; cases hok
  | some t1 =>
    rw [hpre] at hok
    have hmod : stripPre (normOff off) (trimSp e0.1) ≠ [] := by
      intro hm
      have hps : p = [[]] := by
        rw [← hp]; simp [entrySegs, hm, splitSep]
      have : ([] : GoStr) ∈ p := by rw [hps]; simp
      exact hne [] this rfl
    simp only [ListMapGo] at hok
    rw [if_neg hmod] at hok
    have hpn : p ≠ [] := by
      rw [← hp]; exact splitSep_ne_nil '/' _
    cases hi : insertGo t1 (splitSep '/' (stripPre (normOff off) (trimSp e0.1)))
        e0.2 with
    | none => rw [hi] at hok; cases hok
    | some t2 =>
      rw [hi] at hok
      have hset : getPath t2 p = some (Val.str e0.2) := by
        apply insertGo_sets p t1 t2 e0.2 hpn hne
        rw [← hp]
        exact hi
      exact ListMapGo_preserves_getPath post (normOff off) t2 t p e0.2 hok
        hpost hset

/-- C5 counterexample: a list in which the path `x/y` occurs twice, so the
claim promises a tree with the last value at `x/y` and no error — but
`ListMap` panics (the walk for the second entry descends through the string
leaf at `x`), returning no tree at all. -/
theorem ListMap_duplicate_path_panics :
    ListMap [(['x'], ['1']), (['x', '/', 'y'], ['2']),
      (['x', '/', 'y'], ['2'])] [] = none := by rfl

/-- Witness for C5: among `a -> 1, a -> 2, b -> 3` the last write at path
`a` wins and no duplicate error is raised. -/
theorem ListMap_last_write_wins_witness :
    entrySegs (normOff []) ['a'] = [['a']] ∧
    ListMap [(['a'], ['1']), (['a'], ['2']), (['b'], ['3'])] [] =
      some [(['a'], Val.str ['2']), (['b'], Val.str ['3'])] ∧
    getPath [(['a'], Val.str ['2']), (['b'], Val.str ['3'])] [['a']] =
      some (Val.str ['2']) :=
  ⟨by decide, by decide,
   ListMap_last_write_wins [] [(['a'], ['1'])] [(['b'], ['3'])]
     (['a'], ['2']) [(['a'], Val.str ['2']), (['b'], Val.str ['3'])] [['a']]
     (by decide) (by decide) (by decide) (by decide)⟩

/-! ### C1: round-trip machinery — leaves of a tree and path strings -/

/-- Join path segments with the separator (no trailing separator). -/
def joinSegs : List GoStr → GoStr
  | [] => []
  | [s] => s
  | s :: s2 :: rest => s ++ '/' :: joinSegs (s2 :: rest)

mutual
/-- The (path, value) leaves below one value; a string is a leaf at the
empty relative path, a primitive has no leaves. -/
def valLeaves : Val → List (List GoStr × GoStr)
  | Val.str s => [([], s)]
  | Val.map m => fieldsLeaves m
  | Val.prim => []
/-- The (path, value) leaves of a field list, in field order. -/
def fieldsLeaves : Tree → List (List GoStr × GoStr)
  | [] => []
  | (k, v) :: rest =>
    (valLeaves v).map (fun q => (k :: q.1, q.2)) ++ fieldsLeaves rest
end

theorem fieldsLeaves_paths_ne_nil : ∀ (m : Tree), ∀ q ∈ fieldsLeaves m,
    q.1 ≠ [] := by
  intro m
  induction m with
  | nil => simp [fieldsLeaves]
  | cons e rest ih =>
    obtain ⟨k, v⟩ := e
    intro q hq
    simp only [fieldsLeaves, List.mem_append, List.mem_map] at hq
    rcases hq with ⟨q0, _, rfl⟩ | hq2
    · simp
    · exact ih q hq2

theorem path_assoc (p k j : GoStr) :
    (p ++ '/' :: k) ++ '/' :: j = p ++ '/' :: (k ++ '/' :: j) := by simp

theorem writes_leaves_fuel : ∀ n : Nat,
    (∀ v : Val, valSize v ≤ n → ∀ p k : GoStr,
      valWrites (p ++ '/' :: k) v =
        (valLeaves v).map (fun q => (p ++ '/' :: joinSegs (k :: q.1), q.2))) ∧
    (∀ m : Tree, fieldsSize m ≤ n → ∀ p : GoStr,
      fieldsWrites p m =
        (fieldsLeaves m).map (fun q => (p ++ '/' :: joinSegs q.1, q.2))) := by
  intro n
  induction n with
  | zero =>
    constructor
    · intro v h; have := valSize_pos v; omega
    · intro m h; have := fieldsSize_pos m; omega
  | succ n ih =>
    constructor
    · intro v hsz p k
      cases v with
      | str s => simp [valWrites, valLeaves, joinSegs]
      | prim => simp [valWrites, valLeaves]
      | map m =>
        have hm : fieldsSize m ≤ n := by simp [valSize] at hsz; omega
        show fieldsWrites (p ++ '/' :: k) m = _
        rw [ih.2 m hm (p ++ '/' :: k)]
        apply List.map_congr_left
        intro q hq
        obtain ⟨q1, q2⟩ := q
        have hq1 : q1 ≠ [] := fieldsLeaves_paths_ne_nil m (q1, q2) hq
        cases q1 with
        | nil => exact absurd rfl hq1
        | cons x xs => simp [joinSegs]
    · intro m hsz p
      cases m with
      | nil => simp [fieldsWrites, fieldsLeaves]
      | cons e rest =>
        obtain ⟨k, v⟩ := e
        have hv : valSize v ≤ n := by
          have := fieldsSize_pos rest; simp [fieldsSize] at hsz; omega
        have hr : fieldsSize rest ≤ n := by
          have := valSize_pos v; simp [fieldsSize] at hsz; omega
        simp only [fieldsWrites, fieldsLeaves, List.map_append, List.map_map]
        rw [ih.1 v hv p k, ih.2 rest hr p]
        rfl

/-- Flattening `PutMap` emits exactly one write per leaf, at the path
obtained by joining the prefix and the leaf path with separators. -/
theorem fieldsWrites_eq_leaves (T : Tree) (p : GoStr) :
    fieldsWrites p T =
      (fieldsLeaves T).map (fun q => (p ++ '/' :: joinSegs q.1, q.2)) :=
  (writes_leaves_fuel (fieldsSize T)).2 T le_rfl p

/-- For a key whose value is a string leaf, the key must not end in a
space (the full flattened path would be changed by the space trim). -/
def leafSpaceOk (k : GoStr) (v : Val) : Bool :=
  match v with
  | Val.str _ => decide (¬k.getLast? = some ' ')
  | _ => true

mutual
/-- A value is round-trippable: a string, or a non-empty `goodFields` map;
primitives (which flatten to nothing) are excluded. -/
def goodVal : Val → Bool
  | Val.str _ => true
  | Val.prim => false
  | Val.map m => decide (m ≠ []) && goodFields m
/-- A field list is round-trippable: keys are non-empty, contain no
separator, are pairwise distinct, leaf keys do not end in a space, and
every value is itself round-trippable. -/
def goodFields : Tree → Bool
  | [] => true
  | (k, v) :: rest =>
    decide (k ≠ []) && decide ('/' ∉ k) && leafSpaceOk k v &&
    goodVal v && decide (∀ e ∈ rest, e.1 ≠ k) && goodFields rest
end

theorem leafSpaceOk_iff (k : GoStr) (v : Val) :
    leafSpaceOk k v = true ↔ ∀ s : GoStr, v = Val.str s →
      ¬k.getLast? = some ' ' := by
  cases v <;> simp [leafSpaceOk]

theorem goodFields_cons_iff (k : GoStr) (v : Val) (rest : Tree) :
    goodFields ((k, v) :: rest) = true ↔
      k ≠ [] ∧ '/' ∉ k ∧
      (∀ s : GoStr, v = Val.str s → ¬k.getLast? = some ' ') ∧
      goodVal v = true ∧ (∀ e ∈ rest, e.1 ≠ k) ∧ goodFields rest = true := by
  simp only [goodFields, Bool.and_eq_true, decide_eq_true_eq, leafSpaceOk_iff,
    and_assoc]

theorem goodVal_map_iff (m : Tree) :
    goodVal (Val.map m) = true ↔ m ≠ [] ∧ goodFields m = true := by
  simp [goodVal, Bool.and_eq_true]

/-! ### String facts about flattened leaf paths -/

theorem joinSegs_ne_nil (segs : List GoStr) (h1 : segs ≠ [])
    (h2 : ∀ s ∈ segs, s ≠ []) : joinSegs segs ≠ [] := by
  cases segs with
  | nil => exact absurd rfl h1
  | cons s rest =>
    cases rest with
    | nil => exact h2 s (by simp)
    | cons s2 r2 => simp [joinSegs]

theorem splitSep_joinSegs : ∀ (segs : List GoStr), segs ≠ [] →
    (∀ s ∈ segs, '/' ∉ s) → splitSep '/' (joinSegs segs) = segs := by
  intro segs
  induction segs with
  | nil => intro h; exact absurd rfl h
  | cons s rest ih =>
    intro _ hns
    cases rest with
    | nil => exact splitSep_no_sep '/' s (hns s (by simp))
    | cons s2 r2 =>
      show splitSep '/' (s ++ '/' :: joinSegs (s2 :: r2)) = _
      rw [splitSep_append_sep '/' s _ (hns s (by simp))]
      rw [ih (by simp) (fun x hx => hns x (by simp [hx]))]

theorem joinSegs_getLast : ∀ (segs : List GoStr) (ls : GoStr),
    segs.getLast? = some ls → ls ≠ [] → (∀ s ∈ segs, s ≠ []) →
    (joinSegs segs).getLast? = ls.getLast? := by
  intro segs
  induction segs with
  | nil => intro ls h; cases h
  | cons s rest ih =>
    intro ls h hls hall
    cases rest with
    | nil =>
      simp only [List.getLast?_cons, List.getLast?_nil, Option.getD_none] at h
      cases h
      rfl
    | cons s2 r2 =>
      rw [List.getLast?_cons_cons] at h
      show (s ++ '/' :: joinSegs (s2 :: r2)).getLast? = _
      rw [List.getLast?_append]
      have hj : joinSegs (s2 :: r2) ≠ [] :=
        joinSegs_ne_nil _ (by simp) (fun x hx => hall x (by simp [hx]))
      have hcons : ('/' :: joinSegs (s2 :: r2)).getLast? =
          (joinSegs (s2 :: r2)).getLast? := by
        cases hjj : joinSegs (s2 :: r2) with
        | nil => exact absurd hjj hj
        | cons c cs => simp
      rw [hcons, ih ls h hls (fun x hx => hall x (by simp [hx]))]
      cases hlast : ls.getLast? with
      | none => exact absurd (List.getLast?_eq_none_iff.mp hlast) hls
      | some c => simp

theorem head_ne_space (p : GoStr) (c : Char) (j : GoStr)
    (hp : p.head? ≠ some ' ') (hc : c ≠ ' ') :
    (p ++ c :: j).head? ≠ some ' ' := by
  cases p with
  | nil => simpa using hc
  | cons d r =>
    simp only [List.cons_append, List.head?_cons]
    simpa using hp

theorem getLast_ne_space (p j : GoStr) (hj : j ≠ [])
    (hlast : j.getLast? ≠ some ' ') :
    (p ++ '/' :: j).getLast? ≠ some ' ' := by
  rw [List.getLast?_append]
  have hcons : ('/' :: j).getLast? = j.getLast? := by
    cases hjj : j with
    | nil => exact absurd hjj hj
    | cons c cs => simp
  rw [hcons]
  cases hl : j.getLast? with
  | none => exact absurd (List.getLast?_eq_none_iff.mp hl) hj
  | some c => simpa using (by rw [hl] at hlast; simpa using hlast : c ≠ ' ')

/-! ### C1: rebuilding the tree by folding its leaves back in -/

theorem setKey_absent (t : Tree) (k : GoStr) (v : Val)
    (h : lookupKey t k = none) : setKey t k v = t ++ [(k, v)] := by
  induction t with
  | nil => simp [setKey]
  | cons e r ih =>
    obtain ⟨k2, v2⟩ := e
    by_cases h2 : k2 = k
    · simp [lookupKey, h2] at h
    · simp only [lookupKey, if_neg h2] at h
      simp [setKey, h2, ih h]

theorem lookupKey_append_right (t : Tree) (k : GoStr) (w : Val) (a : GoStr)
    (h : lookupKey t a = none) (hka : k ≠ a) :
    lookupKey (t ++ [(k, w)]) a = none := by
  induction t with
  | nil => simp [lookupKey, hka]
  | cons e r ih =>
    obtain ⟨k2, v2⟩ := e
    by_cases h2 : k2 = a
    · simp [lookupKey, h2] at h
    · simp only [lookupKey, if_neg h2] at h
      simp [lookupKey, h2, ih h]

theorem setKey_setKey (t : Tree) (k : GoStr) (a b : Val) :
    setKey (setKey t k a) k b = setKey t k b := by
  induction t with
  | nil => simp [setKey]
  | cons e r ih =>
    obtain ⟨k2, v2⟩ := e
    by_cases h2 : k2 = k
    · simp [setKey, h2]
    · simp [setKey, h2, ih]

/-- The child map the walk continues into under key `k`: the present map,
a fresh empty one when the key is absent, and `none` (walk into a nil map)
when a non-map value sits there. -/
def childAt (t : Tree) (k : GoStr) : Option Tree :=
  match lookupKey t k with
  | some (Val.map sub) => some sub
  | none => some []
  | some _ => none

theorem childAt_setKey_same (t : Tree) (k : GoStr) (sub : Tree) :
    childAt (setKey t k (Val.map sub)) k = some sub := by
  unfold childAt
  rw [lookupKey_setKey_same]

theorem insertGo_child (t : Tree) (k : GoStr) (q : List GoStr) (v : GoStr)
    (hk : k ≠ []) (hq : q ≠ []) (sub : Tree) (hc : childAt t k = some sub) :
    insertGo t (k :: q) v =
      match insertGo sub q v with
      | some sub2 => some (setKey t k (Val.map sub2))
      | none => none := by
  cases q with
  | nil => exact absurd rfl hq
  | cons k2 rest =>
    unfold childAt at hc
    cases hl : lookupKey t k with
    | none =>
      rw [hl] at hc
      cases hc
      exact insertGo_step_none k2 rest v hk hl
    | some u =>
      cases u with
      | map s2 =>
        rw [hl] at hc
        cases hc
        exact insertGo_step_map k2 rest v hk hl
      | str s => rw [hl] at hc; cases hc
      | prim => rw [hl] at hc; cases hc

/-- Fold a list of (segment path, value) leaves into a tree with the
`ListMap` walk. -/
def foldIns (t : Tree) : List (List GoStr × GoStr) → Option Tree
  | [] => some t
  | q :: rest =>
    match insertGo t q.1 q.2 with
    | some t2 => foldIns t2 rest
    | none => none

theorem foldIns_append (t : Tree) (a b : List (List GoStr × GoStr)) :
    foldIns t (a ++ b) =
      match foldIns t a with
      | some t2 => foldIns t2 b
      | none => none := by
  induction a generalizing t with
  | nil => simp [foldIns]
  | cons q r ih =>
    simp only [List.cons_append, foldIns]
    cases hi : insertGo t q.1 q.2 with
    | none => simp
    | some t2 => simp [ih]

theorem foldIns_under_key : ∀ (L : List (List GoStr × GoStr)) (k : GoStr)
    (t sub : Tree), L ≠ [] → (∀ q ∈ L, q.1 ≠ []) → k ≠ [] →
    childAt t k = some sub →
    foldIns t (L.map (fun q => (k :: q.1, q.2))) =
      match foldIns sub L with
      | some s2 => some (setKey t k (Val.map s2))
      | none => none := by
  intro L
  induction L with
  | nil => intro k t sub h; exact absurd rfl h
  | cons x L2 ih =>
    intro k t sub _ hqs hk hc
    have hx1 : x.1 ≠ [] := hqs x (by simp)
    cases L2 with
    | nil =>
      simp only [List.map_cons, List.map_nil, foldIns]
      rw [insertGo_child t k x.1 x.2 hk hx1 sub hc]
      cases hi : insertGo sub x.1 x.2 with
      | none => rfl
      | some s2 => rfl
    | cons y L3 =>
      simp only [List.map_cons, foldIns]
      rw [insertGo_child t k x.1 x.2 hk hx1 sub hc]
      cases hi : insertGo sub x.1 x.2 with
      | none => rfl
      | some s2 =>
        have hrec := ih k (setKey t k (Val.map s2)) s2 (by simp)
          (fun q hq => hqs q (by simp [hq])) hk (childAt_setKey_same t k s2)
        simp only [setKey_setKey] at hrec
        simp only [List.map_cons] at hrec
        exact hrec

theorem fieldsLeaves_ne_nil : ∀ n : Nat, ∀ m : Tree, fieldsSize m ≤ n →
    m ≠ [] → goodFields m = true → fieldsLeaves m ≠ [] := by
  intro n
  induction n with
  | zero => intro m h; have := fieldsSize_pos m; omega
  | succ n ih =>
    intro m hsz hne hg
    cases m with
    | nil => exact absurd rfl hne
    | cons e rest =>
      obtain ⟨k, v⟩ := e
      rw [goodFields_cons_iff] at hg
      obtain ⟨_, _, _, hgv, _, _⟩ := hg
      simp only [fieldsLeaves]
      cases v with
      | str s => simp [valLeaves]
      | prim => simp [goodVal] at hgv
      | map m2 =>
        rw [goodVal_map_iff] at hgv
        have hm2 : fieldsSize m2 ≤ n := by
          have := fieldsSize_pos rest
          simp [fieldsSize, valSize] at hsz; omega
        have hne2 := ih m2 hm2 hgv.1 hgv.2
        simp [valLeaves, hne2]

theorem foldIns_fieldsLeaves : ∀ n : Nat, ∀ T : Tree, fieldsSize T ≤ n →
    goodFields T = true → ∀ t : Tree, (∀ e ∈ T, lookupKey t e.1 = none) →
    foldIns t (fieldsLeaves T) = some (t ++ T) := by
  intro n
  induction n with
  | zero => intro T h; have := fieldsSize_pos T; omega
  | succ n ih =>
    intro T hsz hg t hdis
    cases T with
    | nil => simp [fieldsLeaves, foldIns]
    | cons e rest =>
      obtain ⟨k, v⟩ := e
      rw [goodFields_cons_iff] at hg
      obtain ⟨hk, hsl, hleaf, hgv, hnodup, hgr⟩ := hg
      have hlt : lookupKey t k = none := hdis (k, v) (by simp)
      have hr : fieldsSize rest ≤ n := by
        have := valSize_pos v; simp [fieldsSize] at hsz; omega
      have hdisr : ∀ e2 ∈ rest, lookupKey (t ++ [(k, v)]) e2.1 = none := by
        intro e2 he2
        exact lookupKey_append_right t k v e2.1 (hdis e2 (by simp [he2]))
          (fun he => (hnodup e2 he2) he.symm)
      have hrest : ∀ t2, t2 = t ++ [(k, v)] →
          foldIns t2 (fieldsLeaves rest) = some (t ++ ((k, v) :: rest)) := by
        intro t2 ht2; subst ht2
        rw [ih rest hr hgr (t ++ [(k, v)]) hdisr]
        simp
      cases v with
      | prim => simp [goodVal] at hgv
      | str s =>
        show foldIns t (fieldsLeaves ((k, Val.str s) :: rest)) = _
        simp only [fieldsLeaves, valLeaves, List.map_cons, List.map_nil]
        rw [foldIns_append]
        have h1 : foldIns t [(([k] : List GoStr), s)]
            = some (t ++ [(k, Val.str s)]) := by
          simp only [foldIns]
          rw [insertGo_single t k s hk, setKey_absent t k (Val.str s) hlt]
        rw [h1]
        exact hrest _ rfl
      | map m =>
        rw [goodVal_map_iff] at hgv
        obtain ⟨hm_ne, hgm⟩ := hgv
        have hm : fieldsSize m ≤ n := by
          have := fieldsSize_pos rest
          simp [fieldsSize, valSize] at hsz; omega
        have hLne : fieldsLeaves m ≠ [] := fieldsLeaves_ne_nil n m hm hm_ne hgm
        have hchild : childAt t k = some ([] : Tree) := by
          unfold childAt; rw [hlt]
        show foldIns t (fieldsLeaves ((k, Val.map m) :: rest)) = _
        simp only [fieldsLeaves]
        rw [foldIns_append]
        have h1 : foldIns t ((valLeaves (Val.map m)).map
            (fun q => (k :: q.1, q.2))) = some (t ++ [(k, Val.map m)]) := by
          show foldIns t ((fieldsLeaves m).map (fun q => (k :: q.1, q.2))) = _
          rw [foldIns_under_key (fieldsLeaves m) k t [] hLne
            (fieldsLeaves_paths_ne_nil m) hk hchild]
          rw [ih m hm hgm [] (fun e2 he2 => rfl)]
          show some (setKey t k (Val.map ([] ++ m))) = _
          rw [List.nil_append, setKey_absent t k (Val.map m) hlt]
        rw [h1]
        exact hrest _ rfl

/-! ### C1: the leaves of a good tree have well-behaved path strings -/

theorem leafProps_fuel : ∀ n : Nat,
    (∀ v : Val, valSize v ≤ n → goodVal v = true → ∀ q ∈ valLeaves v,
      (∀ s ∈ q.1, s ≠ [] ∧ '/' ∉ s) ∧
      (∀ ls : GoStr, q.1.getLast? = some ls → ls.getLast? ≠ some ' ')) ∧
    (∀ m : Tree, fieldsSize m ≤ n → goodFields m = true →
      ∀ q ∈ fieldsLeaves m,
      (∀ s ∈ q.1, s ≠ [] ∧ '/' ∉ s) ∧
      (∀ ls : GoStr, q.1.getLast? = some ls → ls.getLast? ≠ some ' ')) := by
  intro n
  induction n with
  | zero =>
    constructor
    · intro v h; have := valSize_pos v; omega
    · intro m h; have := fieldsSize_pos m; omega
  | succ n ih =>
    constructor
    · intro v hsz hgv q hq
      cases v with
      | str s =>
        simp only [valLeaves, List.mem_singleton] at hq
        subst hq
        constructor
        · intro x hx; simp at hx
        · intro ls hls; simp at hls
      | prim => simp [valLeaves] at hq
      | map m =>
        rw [goodVal_map_iff] at hgv
        have hm : fieldsSize m ≤ n := by simp [valSize] at hsz; omega
        exact ih.2 m hm hgv.2 q hq
    · intro m hsz hg q hq
      cases m with
      | nil => simp [fieldsLeaves] at hq
      | cons e rest =>
        obtain ⟨k, v⟩ := e
        rw [goodFields_cons_iff] at hg
        obtain ⟨hk, hsl, hleaf, hgv, _, hgr⟩ := hg
        have hv : valSize v ≤ n := by
          have := fieldsSize_pos rest; simp [fieldsSize] at hsz; omega
        have hr : fieldsSize rest ≤ n := by
          have := valSize_pos v; simp [fieldsSize] at hsz; omega
        simp only [fieldsLeaves, List.mem_append, List.mem_map] at hq
        rcases hq with ⟨q0, hq0, rfl⟩ | hq2
        · have hq0props := ih.1 v hv hgv q0 hq0
          constructor
          · intro x hx
            simp only [List.mem_cons] at hx
            rcases hx with rfl | hx2
            · exact ⟨hk, hsl⟩
            · exact hq0props.1 x hx2
          · intro ls hls
            cases hq01 : q0.1 with
            | nil =>
              rw [hq01] at hls
              simp only [List.getLast?_cons, List.getLast?_nil,
                Option.getD_none] at hls
              cases hls
              cases v with
              | str s => exact hleaf s rfl
              | prim => simp [goodVal] at hgv
              | map m2 =>
                have := fieldsLeaves_paths_ne_nil m2 q0 hq0
                exact absurd hq01 this
            | cons x xs =>
              rw [hq01] at hls
              rw [List.getLast?_cons_cons] at hls
              have := hq0props.2 ls
              rw [hq01] at this
              exact this hls
        · exact ih.2 rest hr hgr q hq2

/-! ### C1: the entry loop on flattened leaf paths is the leaf fold -/

theorem ListMapGo_leaves : ∀ (L : List (List GoStr × GoStr)) (p : GoStr)
    (t : Tree), p.head? ≠ some ' ' →
    (∀ q ∈ L, q.1 ≠ [] ∧ (∀ s ∈ q.1, s ≠ [] ∧ '/' ∉ s) ∧
      (∀ ls : GoStr, q.1.getLast? = some ls → ls.getLast? ≠ some ' ')) →
    ListMapGo (p ++ ['/']) t
        (L.map (fun q => (p ++ '/' :: joinSegs q.1, q.2))) = foldIns t L := by
  intro L
  induction L with
  | nil => intro p t hp hL; rfl
  | cons q L2 ih =>
    intro p t hp hL
    obtain ⟨hq1, hq2, hq3⟩ := hL q (by simp)
    have hsegs_ne : ∀ s ∈ q.1, s ≠ [] := fun s hs => (hq2 s hs).1
    have hjoin_ne : joinSegs q.1 ≠ [] := joinSegs_ne_nil q.1 hq1 hsegs_ne
    have hlast : (p ++ '/' :: joinSegs q.1).getLast? ≠ some ' ' := by
      apply getLast_ne_space p (joinSegs q.1) hjoin_ne
      cases hql : q.1.getLast? with
      | none => exact absurd (List.getLast?_eq_none_iff.mp hql) hq1
      | some ls =>
        rw [joinSegs_getLast q.1 ls hql
          (hsegs_ne ls (List.mem_of_getLast?_eq_some hql)) hsegs_ne]
        exact hq3 ls hql
    have hhead : (p ++ '/' :: joinSegs q.1).head? ≠ some ' ' :=
      head_ne_space p '/' (joinSegs q.1) hp (by decide)
    have htrim : trimSp (p ++ '/' :: joinSegs q.1) = p ++ '/' :: joinSegs q.1 :=
      trimSp_id _ hhead hlast
    have hstrip : stripPre (p ++ ['/']) (p ++ '/' :: joinSegs q.1)
        = joinSegs q.1 := by
      have he : p ++ '/' :: joinSegs q.1 = (p ++ ['/']) ++ joinSegs q.1 := by
        simp
      rw [he, stripPre_append]
    have hsplit : splitSep '/' (joinSegs q.1) = q.1 :=
      splitSep_joinSegs q.1 hq1 (fun s hs => (hq2 s hs).2)
    simp only [List.map_cons, ListMapGo]
    rw [htrim, hstrip, if_neg hjoin_ne, hsplit]
    cases hi : insertGo t q.1 q.2 with
    | none => simp [hi, foldIns]
    | some t2 =>
      simp only [foldIns, hi]
      exact ih p t2 hp (fun x hx => hL x (by simp [hx]))

/-- C1 (amended): round-trip of the Tree Mapper.  For every prefix that
does not begin with a space and does not end with the separator, and every
tree whose maps are non-empty with pairwise-distinct, non-empty,
separator-free keys, whose leaf keys do not end in a space, and whose
values are strings or such maps (`goodFields`), unflattening the flattened
writes under that prefix reproduces the tree exactly. -/
theorem ListMap_PutMap_roundtrip (p : GoStr) (T : Tree)
    (hp1 : p.head? ≠ some ' ') (hp2 : endsSlash p = false)
    (hT : goodFields T = true) :
    ListMap (fieldsWrites p T) p = some T := by
  unfold ListMap
  rw [normOff_concat p hp2, fieldsWrites_eq_leaves T p]
  rw [ListMapGo_leaves (fieldsLeaves T) p [] hp1 (fun q hq =>
    ⟨fieldsLeaves_paths_ne_nil T q hq,
     ((leafProps_fuel (fieldsSize T)).2 T le_rfl hT q hq).1,
     ((leafProps_fuel (fieldsSize T)).2 T le_rfl hT q hq).2⟩)]
  rw [foldIns_fieldsLeaves (fieldsSize T) T le_rfl hT [] (fun e he => rfl)]
  simp

/-- C1 counterexample: the tree `{"a/b": "v"}` has a single (hence unique)
leaf path with one non-empty segment, yet flattening under prefix `p` and
unflattening with offset `p` yields the nested `{"a": {"b": "v"}}`, not the
original tree — a key containing the separator is split apart. -/
theorem ListMap_PutMap_roundtrip_fails :
    (fieldsLeaves [(['a', '/', 'b'], Val.str ['v'])]).map Prod.fst
      = [[['a', '/', 'b']]] ∧
    ListMap (fieldsWrites ['p'] [(['a', '/', 'b'], Val.str ['v'])]) ['p']
      = some [(['a'], Val.map [(['b'], Val.str ['v'])])] ∧
    some [(['a'], Val.map [(['b'], Val.str ['v'])])]
      ≠ some [(['a', '/', 'b'], Val.str ['v'])] :=
  ⟨by decide, by decide, by decide⟩

/-- Witness for C1: a two-field tree with a nested map survives the round
trip under prefix `t`. -/
theorem ListMap_PutMap_roundtrip_witness :
    (['t'] : GoStr).head? ≠ some ' ' ∧ endsSlash ['t'] = false ∧
    goodFields [(['a'], Val.str ['1']),
      (['b'], Val.map [(['c'], Val.str ['2'])])] = true ∧
    ListMap (fieldsWrites ['t'] [(['a'], Val.str ['1']),
        (['b'], Val.map [(['c'], Val.str ['2'])])]) ['t']
      = some [(['a'], Val.str ['1']),
        (['b'], Val.map [(['c'], Val.str ['2'])])] :=
  ⟨by decide, by decide, by decide,
   ListMap_PutMap_roundtrip ['t'] _ (by decide) (by decide) (by decide)⟩

/-! ### C3: leaf-count invariant machinery -/

mutual
/-- No primitive value occurs anywhere (value form); trees built by
`ListMap` only ever contain strings and maps. -/
def valNoPrim : Val → Bool
  | Val.str _ => true
  | Val.prim => false
  | Val.map m => treeNoPrim m
/-- No primitive value occurs anywhere (tree form). -/
def treeNoPrim : Tree → Bool
  | [] => true
  | (_, v) :: r => valNoPrim v && treeNoPrim r
end

theorem lookupKey_noPrim (t : Tree) (k : GoStr) (u : Val)
    (ht : treeNoPrim t = true) (h : lookupKey t k = some u) :
    valNoPrim u = true := by
  induction t with
  | nil => simp [lookupKey] at h
  | cons e r ih =>
    obtain ⟨k2, v2⟩ := e
    simp only [treeNoPrim, Bool.and_eq_true] at ht
    by_cases h2 : k2 = k
    · simp only [lookupKey, if_pos h2] at h
      cases h; exact ht.1
    · simp only [lookupKey, if_neg h2] at h
      exact ih ht.2 h

theorem setKey_noPrim (t : Tree) (k : GoStr) (v : Val)
    (ht : treeNoPrim t = true) (hv : valNoPrim v = true) :
    treeNoPrim (setKey t k v) = true := by
  induction t with
  | nil => simp [setKey, treeNoPrim, hv]
  | cons e r ih =>
    obtain ⟨k2, v2⟩ := e
    simp only [treeNoPrim, Bool.and_eq_true] at ht
    by_cases h2 : k2 = k
    · simp [setKey, h2, treeNoPrim, hv, ht.2]
    · simp [setKey, h2, treeNoPrim, ht.1, ih ht.2]

theorem insertGo_preserves_noPrim :
    ∀ (keys : List GoStr) (t t2 : Tree) (v : GoStr),
      treeNoPrim t = true → insertGo t keys v = some t2 →
      treeNoPrim t2 = true := by
  intro keys
  induction keys with
  | nil =>
    intro t t2 v ht h
    simp only [insertGo] at h
    cases h; exact ht
  | cons k ktail ih =>
    intro t t2 v ht h
    cases ktail with
    | nil =>
      by_cases hk : k = []
      · simp only [insertGo, if_pos hk] at h
        cases h; exact ht
      · rw [insertGo_single t k v hk] at h
        cases h
        exact setKey_noPrim t k (Val.str v) ht rfl
    | cons k2 rest =>
      by_cases hk : k = []
      · simp only [insertGo, if_pos hk] at h
        cases h; exact ht
      · cases hl : lookupKey t k with
        | none =>
          rw [insertGo_step_none k2 rest v hk hl] at h
          cases hi : insertGo [] (k2 :: rest) v with
          | none => rw [hi] at h; cases h
          | some sub2 =>
            rw [hi] at h
            cases h
            exact setKey_noPrim t k (Val.map sub2) ht (ih [] sub2 v rfl hi)
        | some u =>
          cases u with
          | map sub =>
            rw [insertGo_step_map k2 rest v hk hl] at h
            cases hi : insertGo sub (k2 :: rest) v with
            | none => rw [hi] at h; cases h
            | some sub2 =>
              rw [hi] at h
              cases h
              have hsub : treeNoPrim sub = true := by
                have := lookupKey_noPrim t k (Val.map sub) ht hl
                simpa [valNoPrim] using this
              exact setKey_noPrim t k (Val.map sub2) ht (ih sub sub2 v hsub hi)
          | str s =>
            rw [insertGo_step_str k2 rest v hk hl] at h
            by_cases h2 : k2 = []
            · simp only [if_pos h2] at h; cases h; exact ht
            · simp only [if_neg h2] at h; cases h
          | prim =>
            rw [insertGo_step_prim k2 rest v hk hl] at h
            by_cases h2 : k2 = []
            · simp only [if_pos h2] at h; cases h; exact ht
            · simp only [if_neg h2] at h; cases h

theorem fieldsLeaves_append (a b : Tree) :
    fieldsLeaves (a ++ b) = fieldsLeaves a ++ fieldsLeaves b := by
  induction a with
  | nil => simp [fieldsLeaves]
  | cons e r ih =>
    obtain ⟨k, v⟩ := e
    simp [fieldsLeaves, ih]

theorem lookup_leaves_mem (t : Tree) (k : GoStr) (u : Val)
    (h : lookupKey t k = some u) :
    ∀ x ∈ valLeaves u, (k :: x.1, x.2) ∈ fieldsLeaves t := by
  induction t with
  | nil => simp [lookupKey] at h
  | cons e r ih =>
    obtain ⟨k2, v2⟩ := e
    intro x hx
    by_cases h2 : k2 = k
    · simp only [lookupKey, if_pos h2] at h
      cases h
      subst h2
      simp only [fieldsLeaves, List.mem_append, List.mem_map]
      exact Or.inl ⟨x, hx, rfl⟩
    · simp only [lookupKey, if_neg h2] at h
      simp only [fieldsLeaves, List.mem_append]
      exact Or.inr (ih h x hx)

theorem setKey_leaves_balance : ∀ (t : Tree) (k : GoStr) (u w : Val),
    lookupKey t k = some u →
    ((fieldsLeaves (setKey t k w) : Multiset (List GoStr × GoStr))
      + ((valLeaves u).map (fun x => (k :: x.1, x.2)) : Multiset _))
    = (((valLeaves w).map (fun x => (k :: x.1, x.2)) : Multiset _)
      + (fieldsLeaves t : Multiset _)) := by
  intro t
  induction t with
  | nil => intro k u w h; simp [lookupKey] at h
  | cons e r ih =>
    obtain ⟨k2, v2⟩ := e
    intro k u w h
    by_cases h2 : k2 = k
    · simp only [lookupKey, if_pos h2] at h
      cases h
      subst h2
      simp only [setKey, if_pos rfl, fieldsLeaves]
      rw [← Multiset.coe_add, ← Multiset.coe_add]
      abel
    · simp only [lookupKey, if_neg h2] at h
      simp only [setKey, if_neg h2, fieldsLeaves]
      rw [← Multiset.coe_add, ← Multiset.coe_add]
      rw [add_assoc, ih k u w h]
      abel

theorem insertGo_leaves : ∀ (q : List GoStr) (t : Tree) (v : GoStr),
    q ≠ [] → (∀ s ∈ q, s ≠ []) → treeNoPrim t = true →
    (∀ r ∈ (fieldsLeaves t).map Prod.fst, ¬(q <+: r) ∧ ¬(r <+: q)) →
    ∃ t2, insertGo t q v = some t2 ∧
      (fieldsLeaves t2 : Multiset (List GoStr × GoStr))
        = (q, v) ::ₘ (fieldsLeaves t : Multiset (List GoStr × GoStr)) := by
  intro q
  induction q with
  | nil => intro t v hq; exact absurd rfl hq
  | cons k qt ih =>
    intro t v _ hs hnp hpref
    have hk : k ≠ [] := hs k (by simp)
    cases qt with
    | nil =>
      refine ⟨setKey t k (Val.str v), insertGo_single t k v hk, ?_⟩
      cases hl : lookupKey t k with
      | none =>
        rw [setKey_absent t k (Val.str v) hl, fieldsLeaves_append,
          ← Multiset.coe_add]
        simp only [fieldsLeaves, valLeaves, List.map_cons, List.map_nil,
          List.nil_append]
        rw [add_comm]
        rfl
      | some u =>
        have hu : valLeaves u = [] := by
          by_contra hne
          obtain ⟨x, hx⟩ := List.exists_mem_of_ne_nil _ hne
          have hmem := lookup_leaves_mem t k u hl x hx
          have hpath : (k :: x.1) ∈ (fieldsLeaves t).map Prod.fst :=
            List.mem_map_of_mem Prod.fst hmem
          exact (hpref (k :: x.1) hpath).1
            (List.cons_prefix_cons.mpr ⟨rfl, List.nil_prefix⟩)
        have hbal := setKey_leaves_balance t k u (Val.str v) hl
        rw [hu] at hbal
        simp only [List.map_nil, valLeaves, List.map_cons] at hbal
        simpa using hbal
    | cons k2 rest =>
      have hqt : ∀ s ∈ k2 :: rest, s ≠ [] := fun s hs2 => hs s (by simp [hs2])
      cases hl : lookupKey t k with
      | none =>
        obtain ⟨sub2, hsub2, hms⟩ := ih [] v (by simp) hqt rfl
          (by simp [fieldsLeaves])
        refine ⟨setKey t k (Val.map sub2), ?_, ?_⟩
        · rw [insertGo_step_none k2 rest v hk hl, hsub2]
        · rw [setKey_absent t k (Val.map sub2) hl, fieldsLeaves_append,
            ← Multiset.coe_add]
          have hmap : ((fieldsLeaves [(k, Val.map sub2)] : List _) :
              Multiset (List GoStr × GoStr))
              = {((k :: k2 :: rest : List GoStr), v)} := by
            simp only [fieldsLeaves, valLeaves, List.append_nil]
            rw [← Multiset.map_coe, hms]
            simp [fieldsLeaves, Multiset.map_cons]
          rw [hmap, add_comm, Multiset.singleton_add]
      | some u =>
        cases u with
        | map sub =>
          have hsubnp : treeNoPrim sub = true := by
            have := lookupKey_noPrim t k (Val.map sub) hnp hl
            simpa [valNoPrim] using this
          have hsubpref : ∀ r ∈ (fieldsLeaves sub).map Prod.fst,
              ¬((k2 :: rest) <+: r) ∧ ¬(r <+: (k2 :: rest)) := by
            intro r hr
            obtain ⟨x, hx, rfl⟩ := List.mem_map.mp hr
            have hmem := lookup_leaves_mem t k (Val.map sub) hl x hx
            have hpath : (k :: x.1) ∈ (fieldsLeaves t).map Prod.fst :=
              List.mem_map_of_mem Prod.fst hmem
            have hp2 := hpref (k :: x.1) hpath
            constructor
            · exact fun hpre => hp2.1 (List.cons_prefix_cons.mpr ⟨rfl, hpre⟩)
            · exact fun hpre => hp2.2 (List.cons_prefix_cons.mpr ⟨rfl, hpre⟩)
          obtain ⟨sub2, hsub2, hms⟩ := ih sub v (by simp) hqt hsubnp hsubpref
          refine ⟨setKey t k (Val.map sub2), ?_, ?_⟩
          · rw [insertGo_step_map k2 rest v hk hl, hsub2]
          · have hbal := setKey_leaves_balance t k (Val.map sub)
              (Val.map sub2) hl
            have hD : ((valLeaves (Val.map sub2)).map
                (fun x => (k :: x.1, x.2)) : Multiset (List GoStr × GoStr))
                = ((k :: k2 :: rest : List GoStr), v) ::ₘ
                  ((valLeaves (Val.map sub)).map
                    (fun x => (k :: x.1, x.2)) : Multiset _) := by
              show ((fieldsLeaves sub2).map (fun x => (k :: x.1, x.2)) :
                Multiset (List GoStr × GoStr)) = _
              rw [← Multiset.map_coe, hms, Multiset.map_cons,
                ← Multiset.map_coe]
              rfl
            rw [hD] at hbal
            rw [Multiset.cons_add] at hbal
            rw [show ((valLeaves (Val.map sub)).map (fun x => (k :: x.1, x.2))
                : Multiset (List GoStr × GoStr)) + (fieldsLeaves t : Multiset _)
              = (fieldsLeaves t : Multiset _) +
                ((valLeaves (Val.map sub)).map (fun x => (k :: x.1, x.2))
                  : Multiset _) from add_comm _ _] at hbal
            rw [← Multiset.cons_add] at hbal
            exact add_right_cancel hbal
        | str s2 =>
          exfalso
          have hmem := lookup_leaves_mem t k (Val.str s2) hl ([], s2)
            (by simp [valLeaves])
          have hpath : (k :: ([] : List GoStr)) ∈
              (fieldsLeaves t).map Prod.fst :=
            List.mem_map_of_mem Prod.fst hmem
          exact (hpref [k] hpath).2
            (List.cons_prefix_cons.mpr ⟨rfl, List.nil_prefix⟩)
        | prim =>
          exfalso
          have := lookupKey_noPrim t k Val.prim hnp hl
          simp [valNoPrim] at this

theorem ListMapGo_leaf_multiset : ∀ (entries : List (GoStr × GoStr))
    (off2 : GoStr) (t : Tree), treeNoPrim t = true →
    (∀ e ∈ entries, ∀ s ∈ entrySegs off2 e.1, s ≠ []) →
    List.Pairwise (fun a b => ¬(entrySegs off2 a.1 <+: entrySegs off2 b.1) ∧
      ¬(entrySegs off2 b.1 <+: entrySegs off2 a.1)) entries →
    (∀ e ∈ entries, ∀ r ∈ (fieldsLeaves t).map Prod.fst,
      ¬(entrySegs off2 e.1 <+: r) ∧ ¬(r <+: entrySegs off2 e.1)) →
    ∃ t2, ListMapGo off2 t entries = some t2 ∧
      ((fieldsLeaves t2).map Prod.fst : Multiset (List GoStr))
        = (entries.map (fun e => entrySegs off2 e.1) : Multiset (List GoStr))
          + ((fieldsLeaves t).map Prod.fst : Multiset (List GoStr)) := by
  intro entries
  induction entries with
  | nil =>
    intro off2 t hnp hseg hpair hpref
    exact ⟨t, rfl, by simp⟩
  | cons e rest ih =>
    intro off2 t hnp hseg hpair hpref
    have hsege : ∀ s ∈ entrySegs off2 e.1, s ≠ [] := hseg e (by simp)
    have hmod : stripPre off2 (trimSp e.1) ≠ [] := by
      intro hm
      have hsg : entrySegs off2 e.1 = [[]] := by
        simp [entrySegs, hm, splitSep]
      have : ([] : GoStr) ∈ entrySegs off2 e.1 := by rw [hsg]; simp
      exact hsege [] this rfl
    obtain ⟨t3, hins, hms⟩ := insertGo_leaves (entrySegs off2 e.1) t e.2
      (by unfold entrySegs; exact splitSep_ne_nil '/' _) hsege hnp
      (hpref e (by simp))
    have hnp3 : treeNoPrim t3 = true :=
      insertGo_preserves_noPrim _ t t3 e.2 hnp hins
    have hmem3 : ∀ r, r ∈ (fieldsLeaves t3).map Prod.fst →
        r = entrySegs off2 e.1 ∨ r ∈ (fieldsLeaves t).map Prod.fst := by
      intro r hr
      have : r ∈ ((fieldsLeaves t3).map Prod.fst : Multiset (List GoStr)) :=
        Multiset.mem_coe.mpr hr
      rw [show ((fieldsLeaves t3).map Prod.fst : Multiset (List GoStr))
          = entrySegs off2 e.1 ::ₘ ((fieldsLeaves t).map Prod.fst :
            Multiset (List GoStr)) from by
        rw [← Multiset.map_coe, hms, Multiset.map_cons, ← Multiset.map_coe]]
        at this
      rcases Multiset.mem_cons.mp this with h1 | h2
      · exact Or.inl h1
      · exact Or.inr (Multiset.mem_coe.mp h2)
    have hpref3 : ∀ e2 ∈ rest, ∀ r ∈ (fieldsLeaves t3).map Prod.fst,
        ¬(entrySegs off2 e2.1 <+: r) ∧ ¬(r <+: entrySegs off2 e2.1) := by
      intro e2 he2 r hr
      rcases hmem3 r hr with rfl | hin
      · have := (List.pairwise_cons.mp hpair).1 e2 he2
        exact ⟨fun hx => this.2 hx, fun hx => this.1 hx⟩
      · exact hpref e2 (by simp [he2]) r hin
    obtain ⟨t2, hgo, hms2⟩ := ih off2 t3 hnp3
      (fun e2 he2 => hseg e2 (by simp [he2]))
      (List.pairwise_cons.mp hpair).2 hpref3
    refine ⟨t2, ?_, ?_⟩
    · simp only [ListMapGo]
      rw [if_neg hmod]
      have : insertGo t (splitSep '/' (stripPre off2 (trimSp e.1))) e.2
          = some t3 := hins
      rw [this]
      exact hgo
    · rw [hms2]
      rw [show ((fieldsLeaves t3).map Prod.fst : Multiset (List GoStr))
          = entrySegs off2 e.1 ::ₘ ((fieldsLeaves t).map Prod.fst :
            Multiset (List GoStr)) from by
        rw [← Multiset.map_coe, hms, Multiset.map_cons, ← Multiset.map_coe]]
      simp only [List.map_cons]
      rw [← Multiset.cons_coe, ← Multiset.singleton_add,
        ← Multiset.singleton_add]
      abel

/-- C3 (amended): leaf-count invariant of unflattening.  For a list of N
entries whose offset-stripped paths have only non-empty segments and are
pairwise prefix-free (no stripped path is a prefix of another — in
particular they are pairwise distinct and non-empty), `ListMap` succeeds
and returns a tree with exactly N string leaves whose leaf paths are
pairwise distinct — each leaf is reachable by exactly one path. -/
theorem ListMap_leaf_count (entries : List (GoStr × GoStr)) (off : GoStr)
    (hseg : ∀ e ∈ entries, ∀ s ∈ entrySegs (normOff off) e.1, s ≠ [])
    (hpair : List.Pairwise (fun a b =>
      ¬(entrySegs (normOff off) a.1 <+: entrySegs (normOff off) b.1) ∧
      ¬(entrySegs (normOff off) b.1 <+: entrySegs (normOff off) a.1))
      entries) :
    ∃ t, ListMap entries off = some t ∧
      (fieldsLeaves t).length = entries.length ∧
      ((fieldsLeaves t).map Prod.fst).Nodup := by
  obtain ⟨t, hgo, hms⟩ := ListMapGo_leaf_multiset entries (normOff off) []
    rfl hseg hpair (by simp [fieldsLeaves])
  simp only [fieldsLeaves, List.map_nil, Multiset.coe_nil, add_zero] at hms
  have hperm : ((fieldsLeaves t).map Prod.fst).Perm
      (entries.map (fun e => entrySegs (normOff off) e.1)) :=
    Multiset.coe_eq_coe.mp hms
  refine ⟨t, hgo, ?_, ?_⟩
  · have := hperm.length_eq
    simpa using this
  · have hnodup : (entries.map
        (fun e => entrySegs (normOff off) e.1)).Nodup := by
      have hpne : List.Pairwise (fun a b : GoStr × GoStr =>
          entrySegs (normOff off) a.1 ≠ entrySegs (normOff off) b.1)
          entries :=
        hpair.imp (fun h heq => h.1 (by rw [heq]))
      exact List.pairwise_map.mpr hpne
    exact hperm.nodup_iff.mpr hnodup

/-- C3 counterexample: the entries `a/b -> 1, a -> 2` (offset `x`, which
strips nothing) have pairwise-distinct non-empty stripped paths with no
empty segments, yet the returned tree has one leaf, not two: the later
write at `a` silently overwrites the whole branch holding `a/b`. -/
theorem ListMap_leaf_count_fails :
    entrySegs (normOff ['x']) ['a', '/', 'b'] ≠ entrySegs (normOff ['x']) ['a'] ∧
    (∀ e ∈ ([(['a', '/', 'b'], ['1']), (['a'], ['2'])] :
      List (GoStr × GoStr)), ∀ s ∈ entrySegs (normOff ['x']) e.1, s ≠ []) ∧
    ListMap [(['a', '/', 'b'], ['1']), (['a'], ['2'])] ['x']
      = some [(['a'], Val.str ['2'])] ∧
    (fieldsLeaves [(['a'], Val.str ['2'])]).length = 1 ∧
    ([(['a', '/', 'b'], ['1']), (['a'], ['2'])] :
      List (GoStr × GoStr)).length = 2 :=
  ⟨by decide, by decide, by decide, by decide, by decide⟩

/-- Witness for C3: two prefix-free entries produce a two-leaf tree with
distinct leaf paths. -/
theorem ListMap_leaf_count_witness :
    (∀ e ∈ ([(['a'], ['1']), (['b', 'c'], ['2'])] : List (GoStr × GoStr)),
      ∀ s ∈ entrySegs (normOff []) e.1, s ≠ []) ∧
    (∃ t, ListMap [(['a'], ['1']), (['b', 'c'], ['2'])] [] = some t ∧
      (fieldsLeaves t).length = 2 ∧ ((fieldsLeaves t).map Prod.fst).Nodup) :=
  ⟨by decide, ListMap_leaf_count [(['a'], ['1']), (['b', 'c'], ['2'])] []
    (by decide) (by decide)⟩

end Consul
